import Mathlib

/-!
Verification development for the news-driven backtest engine
(backtest.py, performance.py, optimization.py).

Timestamps and prices are idealised as rationals.  Where the code relies on
IEEE float special values (NaN as the "missing price" marker of the resolver,
signed infinities from division by zero) a small explicit float model `Fl` is
used, so that propagation of non-finite values can be stated faithfully.
-/

/-- Model of a numpy double as the pipeline uses it: a finite value
(idealised as a rational), a signed infinity, or NaN.  NaN marks a missing
price (pandas notna), division of a nonzero finite value by zero yields a
signed infinity, 0/0 yields NaN, and every comparison with NaN is false. -/
inductive Fl where
  | fin (q : ℚ)
  | pinf
  | ninf
  | nan
deriving DecidableEq, Repr

/-- Float subtraction (numpy semantics on the model). -/
def Fl.sub : Fl → Fl → Fl
  | .nan, _ => .nan
  | _, .nan => .nan
  | .fin a, .fin b => .fin (a - b)
  | .fin _, .pinf => .ninf
  | .fin _, .ninf => .pinf
  | .pinf, .fin _ => .pinf
  | .ninf, .fin _ => .ninf
  | .pinf, .ninf => .pinf
  | .ninf, .pinf => .ninf
  | .pinf, .pinf => .nan
  | .ninf, .ninf => .nan

/-- Float division (numpy semantics on the model): a finite value divided by
zero gives a signed infinity, 0/0 gives NaN. -/
def Fl.div : Fl → Fl → Fl
  | .nan, _ => .nan
  | _, .nan => .nan
  | .fin a, .fin b =>
      if b = 0 then (if 0 < a then .pinf else if a < 0 then .ninf else .nan)
      else .fin (a / b)
  | .pinf, .fin b => if b < 0 then .ninf else .pinf
  | .ninf, .fin b => if b < 0 then .pinf else .ninf
  | .fin _, .pinf => .fin 0
  | .fin _, .ninf => .fin 0
  | .pinf, .pinf => .nan
  | .pinf, .ninf => .nan
  | .ninf, .pinf => .nan
  | .ninf, .ninf => .nan

/-- Float multiplication (numpy semantics on the model). -/
def Fl.mul : Fl → Fl → Fl
  | .nan, _ => .nan
  | _, .nan => .nan
  | .fin a, .fin b => .fin (a * b)
  | .fin a, .pinf => if 0 < a then .pinf else if a < 0 then .ninf else .nan
  | .fin a, .ninf => if 0 < a then .ninf else if a < 0 then .pinf else .nan
  | .pinf, .fin a => if 0 < a then .pinf else if a < 0 then .ninf else .nan
  | .ninf, .fin a => if 0 < a then .ninf else if a < 0 then .pinf else .nan
  | .pinf, .pinf => .pinf
  | .pinf, .ninf => .ninf
  | .ninf, .pinf => .ninf
  | .ninf, .ninf => .pinf

/-- The comparison `x > 0` of numpy: false on NaN. -/
def Fl.gtZero : Fl → Bool
  | .fin a => decide (0 < a)
  | .pinf => true
  | .ninf => false
  | .nan => false

/-- The pandas notna test: everything but NaN is present (infinities count as
present). -/
def Fl.notna : Fl → Bool
  | .nan => false
  | _ => true

/-- The optional trading-cost configuration of backtest.py (the two dict
keys, both defaulting to 0 when read with dict.get). -/
structure TradingCosts where
  transaction_cost : ℚ
  slippage : ℚ
deriving DecidableEq, Repr

/-- The three resolved price columns of one merged event row, as they enter
calculate_trading_returns (src/backtest.py line 84). -/
structure TradePrices where
  price_current : Fl
  price_window : Fl
  price_threshold : Fl
deriving DecidableEq, Repr

/-- The columns calculate_trading_returns adds to a row. -/
structure TradeCols where
  price_change_window : Fl
  position : Int
  price_change_threshold : Fl
  trade_return : Fl
deriving DecidableEq, Repr

/-- Embedding of calculate_trading_returns (src/backtest.py lines 84-110),
per row: the vectorised pandas arithmetic is elementwise, so one row at a
time is faithful.  np.where(x > 0, 1, -1) gives -1 on zero and on NaN. -/
def calculate_trading_returns (row : TradePrices)
    (trading_costs : Option TradingCosts) : TradeCols :=
  let price_change_window :=
    (row.price_window.sub row.price_current).div row.price_current
  let position : Int := if price_change_window.gtZero then 1 else -1
  let price_change_threshold :=
    (row.price_threshold.sub row.price_current).div row.price_current
  let trade_return :=
    match trading_costs with
    | some tc =>
        let total_cost := tc.transaction_cost + tc.slippage
        ((Fl.fin (position : ℚ)).mul price_change_threshold).sub
          (Fl.fin (2 * total_cost * |(position : ℚ)|))
    | none => (Fl.fin (position : ℚ)).mul price_change_threshold
  ⟨price_change_window, position, price_change_threshold, trade_return⟩

/-- Embedding of the row-survival mask of execute_backtest_strategy
(src/backtest.py line 144): a row is kept iff none of its three resolved
prices is NaN.  Note that a zero price passes this mask. -/
def price_mask (row : TradePrices) : Bool :=
  row.price_current.notna && row.price_window.notna && row.price_threshold.notna

/-- C2: for every trade row whose three prices resolved to finite values with
a nonzero current price, the position is +1 exactly when the window price
change (price_window - price_current) / price_current is strictly positive
and -1 otherwise (a zero change gives -1), and the trade return equals
position * price_change_threshold minus 2 * (transaction_cost + slippage) *
abs position when a costs configuration is supplied and minus 0 when not. -/
theorem trading_returns_formula (pc pw pt : ℚ) (costs : Option TradingCosts)
    (hpc : pc ≠ 0) :
    ((calculate_trading_returns ⟨.fin pc, .fin pw, .fin pt⟩ costs).position
        = if 0 < (pw - pc) / pc then 1 else -1)
    ∧ ((pw - pc) / pc = 0 →
        (calculate_trading_returns ⟨.fin pc, .fin pw, .fin pt⟩ costs).position = -1)
    ∧ ((calculate_trading_returns ⟨.fin pc, .fin pw, .fin pt⟩ costs).trade_return
        = Fl.fin
            (((calculate_trading_returns ⟨.fin pc, .fin pw, .fin pt⟩ costs).position : ℚ)
              * ((pt - pc) / pc)
            - (match costs with
               | some tc => 2 * (tc.transaction_cost + tc.slippage)
                  * |((calculate_trading_returns ⟨.fin pc, .fin pw, .fin pt⟩ costs).position : ℚ)|
               | none => 0))) := by
  have hsubw : (Fl.fin pw).sub (Fl.fin pc) = Fl.fin (pw - pc) := rfl
  have hsubt : (Fl.fin pt).sub (Fl.fin pc) = Fl.fin (pt - pc) := rfl
  have hdivw : (Fl.fin (pw - pc)).div (Fl.fin pc) = Fl.fin ((pw - pc) / pc) := by
    simp [Fl.div, hpc]
  have hdivt : (Fl.fin (pt - pc)).div (Fl.fin pc) = Fl.fin ((pt - pc) / pc) := by
    simp [Fl.div, hpc]
  by_cases hb : 0 < (pw - pc) / pc
  · refine ⟨?_, ?_, ?_⟩
    · simp [calculate_trading_returns, hsubw, hdivw, Fl.gtZero, hb]
    · intro h0; rw [h0] at hb; exact absurd hb (lt_irrefl 0)
    · cases costs with
      | none =>
          simp [calculate_trading_returns, hsubw, hsubt, hdivw, hdivt, Fl.gtZero,
            hb, Fl.mul, Fl.sub]
      | some tc =>
          simp [calculate_trading_returns, hsubw, hsubt, hdivw, hdivt, Fl.gtZero,
            hb, Fl.mul, Fl.sub]
  · refine ⟨?_, ?_, ?_⟩
    · simp [calculate_trading_returns, hsubw, hdivw, Fl.gtZero, hb]
    · intro _
      simp [calculate_trading_returns, hsubw, hdivw, Fl.gtZero, hb]
    · cases costs with
      | none =>
          simp [calculate_trading_returns, hsubw, hsubt, hdivw, hdivt, Fl.gtZero,
            hb, Fl.mul, Fl.sub]
      | some tc =>
          simp [calculate_trading_returns, hsubw, hsubt, hdivw, hdivt, Fl.gtZero,
            hb, Fl.mul, Fl.sub]

/-- C5 (evaluating the code at the failing input): an event row whose
resolved current price is zero passes the notna survival mask of
execute_backtest_strategy, and calculate_trading_returns turns it into a
positive-infinity trade return, so the non-finite value reaches the
per-trade returns list instead of the event being dropped. -/
theorem zero_price_row_kept_and_infinite :
    price_mask ⟨.fin 0, .fin 1, .fin 2⟩ = true
    ∧ (calculate_trading_returns ⟨.fin 0, .fin 1, .fin 2⟩ none).trade_return = Fl.pinf
    ∧ (calculate_trading_returns ⟨.fin 0, .fin 1, .fin 2⟩ none).price_change_window
        = Fl.pinf := by
  refine ⟨rfl, ?_, ?_⟩ <;>
    norm_num [calculate_trading_returns, Fl.sub, Fl.div, Fl.mul, Fl.gtZero]

/-- Embedding of the total-return computation of calculate_performance_metrics
(src/performance.py line 13): np.prod(1 + returns_array) - 1, the product
taken left to right over the returns in order. -/
def total_return_code (returns : List ℚ) : ℚ :=
  ((returns.map (fun r => 1 + r)).foldl (· * ·) 1) - 1

/-- Embedding of the annualized-return computation of
calculate_performance_metrics (src/performance.py lines 18-24):
(1 + total_return) ** (365 / num_trades) - 1 when num_trades > 0, else 0.
The function consumes only the list of returns: the period count is the
trade count itself, no elapsed-time information enters. -/
noncomputable def annualized_return_code (returns : List ℚ) : ℝ :=
  if 0 < returns.length then
    (1 + (total_return_code returns : ℝ)) ^ ((365 : ℝ) / (returns.length : ℝ)) - 1
  else 0

/-- Modelled from the spec wording of section 4.4: total return as the
product of (1 + r_i) over all trades, minus 1. -/
def total_return_spec (returns : List ℚ) : ℚ :=
  (returns.map (fun r => 1 + r)).prod - 1

/-- Modelled from the spec wording of section 4.4: annualized return as
(1 + total_return) raised to the power 365 / num_trades, minus 1. -/
noncomputable def annualized_return_spec (returns : List ℚ) : ℝ :=
  (1 + (total_return_spec returns : ℝ)) ^ ((365 : ℝ) / (returns.length : ℝ)) - 1

/-- C3: for every non-empty sequence of trade returns the metrics engine
computes total_return as the product of (1 + r_i) minus 1, and
annualized_return as (1 + total_return) to the power 365 / num_trades minus
1, where num_trades is the length of the returns list itself — no
elapsed-time correction enters either formula. -/
theorem performance_metrics_formulas (r : ℚ) (rest : List ℚ) :
    total_return_code (r :: rest) = total_return_spec (r :: rest)
    ∧ annualized_return_code (r :: rest) = annualized_return_spec (r :: rest) := by
  have htot : ∀ l : List ℚ, total_return_code l = total_return_spec l := by
    intro l
    unfold total_return_code total_return_spec
    rw [List.prod_eq_foldl]
  refine ⟨htot _, ?_⟩
  unfold annualized_return_code annualized_return_spec
  rw [htot]
  simp

/-- One optimization-result record as the ranking step of
run_parameter_optimization_efficient sees it (src/optimization.py lines
221-237): the parameter pair and the value of the chosen objective metric.
The further metric fields of the record do not enter the ranking. -/
structure OptResult where
  window : ℚ
  threshold : ℚ
  optimization_metric : ℚ
deriving DecidableEq, Repr

/-- Stable insertion used to model the CPython list.sort: the element is
placed before the first entry b with before a b, after every earlier entry
it does not beat.  CPython sorts with a stable algorithm; any stable sort
computes the same list, so insertion sort is a faithful executable model. -/
def stable_insert (before : α → α → Bool) (a : α) : List α → List α
  | [] => [a]
  | b :: l => if before a b then a :: b :: l else b :: stable_insert before a l

/-- Stable sort modelling CPython list.sort with a key function: before a b
must hold exactly when a may legally stay in front of b, ties included. -/
def stable_sort (before : α → α → Bool) : List α → List α
  | [] => []
  | a :: l => stable_insert before a (stable_sort before l)

/-- Embedding of the ranking step, src/optimization.py lines 246-248:
reverse_sort is true unless the metric is max_drawdown, and the results are
sorted by the objective value with CPython stable sort, descending when
reverse_sort (Python sort with reverse=True keeps equal elements in their
original order). -/
def sort_optimization_results (optimization_metric : String)
    (results : List OptResult) : List OptResult :=
  let reverse_sort := !(["max_drawdown"].contains optimization_metric)
  if reverse_sort then
    stable_sort (fun a b => decide (b.optimization_metric ≤ a.optimization_metric)) results
  else
    stable_sort (fun a b => decide (a.optimization_metric ≤ b.optimization_metric)) results

/-- Embedding of the parameter enumeration of get_optimization_parameters
(src/optimization.py lines 109-113): the itertools.product cross product of
the window candidates with the threshold candidates, window-major, keeping
the pairs with threshold strictly greater than window. -/
def valid_combinations (selected_windows selected_thresholds : List ℚ) :
    List (ℚ × ℚ) :=
  ((selected_windows.map
      (fun w => selected_thresholds.map (fun t => (w, t)))).flatten).filter
    (fun p => decide (p.1 < p.2))

theorem stable_insert_perm (before : α → α → Bool) (a : α) (l : List α) :
    (stable_insert before a l).Perm (a :: l) := by
  induction l with
  | nil => simp [stable_insert]
  | cons b l ih =>
      by_cases h : before a b
      · simp [stable_insert, h]
      · simp only [stable_insert, h, if_false]
        exact ((ih.cons b).trans (List.Perm.swap a b l))

theorem stable_sort_perm (before : α → α → Bool) (l : List α) :
    (stable_sort before l).Perm l := by
  induction l with
  | nil => simp [stable_sort]
  | cons a l ih =>
      exact ((stable_insert_perm before a (stable_sort before l)).trans (ih.cons a))

theorem mem_stable_insert (before : α → α → Bool) (a x : α) (l : List α) :
    x ∈ stable_insert before a l ↔ x = a ∨ x ∈ l := by
  have := (stable_insert_perm before a l).mem_iff (a := x)
  simpa using this

theorem stable_insert_pairwise (R : α → α → Prop) (before : α → α → Bool)
    (htot : ∀ a b, before a b = false → R b a)
    (hof : ∀ a b, before a b = true → R a b)
    (htrans : ∀ a b c, R a b → R b c → R a c)
    (a : α) (l : List α) (hl : l.Pairwise R) :
    (stable_insert before a l).Pairwise R := by
  induction l with
  | nil => simp [stable_insert]
  | cons b l ih =>
      rcases List.pairwise_cons.1 hl with ⟨hb, hl2⟩
      by_cases h : before a b
      · simp only [stable_insert, h, if_true]
        refine List.pairwise_cons.2 ⟨?_, hl⟩
        intro x hx
        rcases List.mem_cons.1 hx with rfl | hx
        · exact hof _ _ h
        · exact htrans _ _ _ (hof _ _ h) (hb x hx)
      · simp only [stable_insert, h, if_false]
        refine List.pairwise_cons.2 ⟨?_, ih hl2⟩
        intro x hx
        rcases (mem_stable_insert before a x l).1 hx with rfl | hx
        · exact htot _ _ (by simpa using h)
        · exact hb x hx

theorem stable_sort_pairwise (R : α → α → Prop) (before : α → α → Bool)
    (htot : ∀ a b, before a b = false → R b a)
    (hof : ∀ a b, before a b = true → R a b)
    (htrans : ∀ a b c, R a b → R b c → R a c)
    (l : List α) : (stable_sort before l).Pairwise R := by
  induction l with
  | nil => simp [stable_sort]
  | cons a l ih =>
      exact stable_insert_pairwise R before htot hof htrans a _ ih

/-- Decomposition of a stable insertion: the sorted tail splits at the
insertion point, and the element beats nothing in the prefix. -/
theorem stable_insert_split (before : α → α → Bool) (a : α) (l : List α) :
    ∃ pfx sfx, l = pfx ++ sfx ∧ stable_insert before a l = pfx ++ a :: sfx
      ∧ ∀ b ∈ pfx, before a b = false := by
  induction l with
  | nil => exact ⟨[], [], rfl, rfl, by simp⟩
  | cons b l ih =>
      by_cases h : before a b
      · exact ⟨[], b :: l, rfl, by simp [stable_insert, h], by simp⟩
      · rcases ih with ⟨pfx, sfx, hsplit, hins, hpfx⟩
        refine ⟨b :: pfx, sfx, by simp [hsplit], ?_, ?_⟩
        · simp [stable_insert, h, hins]
        · intro c hc
          rcases List.mem_cons.1 hc with rfl | hc
          · simpa using h
          · exact hpfx c hc

/-- Stable insertion with a descending key commutes with filtering for one
key value: elements the insertion skips have strictly larger keys. -/
theorem stable_insert_filter_desc (key : α → ℚ) (a : α) (l : List α) (v : ℚ) :
    (stable_insert (fun x y => decide (key y ≤ key x)) a l).filter
        (fun x => decide (key x = v))
      = if key a = v then a :: l.filter (fun x => decide (key x = v))
        else l.filter (fun x => decide (key x = v)) := by
  rcases stable_insert_split (fun x y => decide (key y ≤ key x)) a l with
    ⟨pfx, sfx, hsplit, hins, hpfx⟩
  subst hsplit
  rw [hins, List.filter_append, List.filter_append]
  by_cases hv : key a = v
  · have hpe : pfx.filter (fun x => decide (key x = v)) = [] := by
      rw [List.filter_eq_nil_iff]
      intro x hx
      have hxa : ¬ key x ≤ key a := by simpa using hpfx x hx
      simp only [decide_eq_true_eq]
      intro hxv
      exact hxa (le_of_eq (hxv.trans hv.symm))
    simp [hv, hpe, List.filter_cons]
  · simp [hv, List.filter_cons]

/-- A stable descending sort keeps the elements of any single key value in
their input order. -/
theorem stable_sort_filter_desc (key : α → ℚ) (l : List α) (v : ℚ) :
    (stable_sort (fun x y => decide (key y ≤ key x)) l).filter
        (fun x => decide (key x = v))
      = l.filter (fun x => decide (key x = v)) := by
  induction l with
  | nil => rfl
  | cons a l ih =>
      simp only [stable_sort]
      rw [stable_insert_filter_desc]
      by_cases hv : key a = v <;> simp [hv, List.filter_cons, ih]

/-- When every element of the list may stay before every other, the stable
sort is the identity. -/
theorem stable_sort_of_all_before (before : α → α → Bool) (l : List α)
    (h : ∀ a ∈ l, ∀ b ∈ l, before a b = true) : stable_sort before l = l := by
  induction l with
  | nil => rfl
  | cons a l ih =>
      have hl : stable_sort before l = l := by
        refine ih ?_
        intro x hx y hy
        exact h x (List.mem_cons_of_mem a hx) y (List.mem_cons_of_mem a hy)
      simp only [stable_sort, hl]
      cases l with
      | nil => rfl
      | cons b l2 =>
          have hab : before a b = true :=
            h a (List.mem_cons_self a _) b (List.mem_cons_of_mem a (List.mem_cons_self b _))
          simp [stable_insert, hab]

/-- C4: for each of the five supported objective metrics the ranking step
sorts the surviving results in descending order of the objective value with
a stable sort (a permutation of the input in which the results of any one
objective value keep their enumeration order, so of two equal combinations
the one enumerated first ranks first), and with ascending candidate lists
the enumeration order of valid combinations is lexicographic: lower window
first, then lower threshold. -/
theorem optimizer_ranking_descending_stable (metric : String)
    (hm : metric ∈
      ["total_return", "sharpe_ratio", "calmar_ratio", "win_rate", "profit_factor"]) :
    (∀ rs : List OptResult,
        (sort_optimization_results metric rs).Pairwise
          (fun a b => b.optimization_metric ≤ a.optimization_metric)
        ∧ (sort_optimization_results metric rs).Perm rs
        ∧ ∀ v : ℚ,
            (sort_optimization_results metric rs).filter
                (fun r => decide (r.optimization_metric = v))
              = rs.filter (fun r => decide (r.optimization_metric = v)))
    ∧ (∀ ws ts : List ℚ, ws.Pairwise (· < ·) → ts.Pairwise (· < ·) →
        (valid_combinations ws ts).Pairwise
          (fun p q => p.1 < q.1 ∨ (p.1 = q.1 ∧ p.2 < q.2))) := by
  have hmd : metric ≠ "max_drawdown" := by
    intro h
    rw [h] at hm
    exact absurd hm (by decide)
  have hcont : (["max_drawdown"].contains metric) = false := by
    simp only [List.contains_cons, List.contains_nil, Bool.or_false, beq_iff_eq]
    exact decide_eq_false hmd
  have hsort : ∀ rs, sort_optimization_results metric rs
      = stable_sort
          (fun a b => decide (b.optimization_metric ≤ a.optimization_metric)) rs := by
    intro rs
    unfold sort_optimization_results
    rw [hcont]
    rfl
  constructor
  · intro rs
    rw [hsort]
    refine ⟨?_, ?_, ?_⟩
    · refine stable_sort_pairwise _ _ ?_ ?_ ?_ rs
      · intro a b hab
        exact le_of_not_le (by simpa using hab)
      · intro a b hab
        simpa using hab
      · intro a b c h1 h2
        exact le_trans h2 h1
    · exact stable_sort_perm _ rs
    · intro v
      exact stable_sort_filter_desc OptResult.optimization_metric rs v
  · intro ws ts hws hts
    unfold valid_combinations
    refine List.Pairwise.filter _ ?_
    rw [List.pairwise_flatten]
    refine ⟨?_, ?_⟩
    · intro l2 hl2
      rcases List.mem_map.1 hl2 with ⟨w, hw, rfl⟩
      rw [List.pairwise_map]
      exact hts.imp (fun hlt => Or.inr ⟨rfl, hlt⟩)
    · rw [List.pairwise_map]
      refine hws.imp ?_
      intro w1 w2 hlt x hx y hy
      rcases List.mem_map.1 hx with ⟨t1, ht1, rfl⟩
      rcases List.mem_map.1 hy with ⟨t2, ht2, rfl⟩
      exact Or.inl hlt

/-- The metrics record calculate_performance_metrics returns
(src/performance.py lines 64-76).  Values are idealised as rationals; only
the key set and the lookup behaviour matter for the ranking claims. -/
structure PerformanceMetrics where
  total_return : ℚ
  annualized_return : ℚ
  max_drawdown : ℚ
  sharpe_ratio : ℚ
  calmar_ratio : ℚ
  num_trades : Int
  volatility : ℚ
  win_rate : ℚ
  avg_win : ℚ
  avg_loss : ℚ
  profit_factor : ℚ
deriving DecidableEq, Repr

/-- The keys of the metrics dict, in the order performance.py builds it. -/
def metrics_keys : List String :=
  ["total_return", "annualized_return", "max_drawdown", "sharpe_ratio",
   "calmar_ratio", "num_trades", "volatility", "win_rate", "avg_win",
   "avg_loss", "profit_factor"]

/-- Embedding of metrics.get(key, 0) on the metrics dict
(src/optimization.py line 209): the field named by the key, or the default 0
when the key names no field. -/
def metrics_get (m : PerformanceMetrics) (key : String) : ℚ :=
  if key = "total_return" then m.total_return
  else if key = "annualized_return" then m.annualized_return
  else if key = "max_drawdown" then m.max_drawdown
  else if key = "sharpe_ratio" then m.sharpe_ratio
  else if key = "calmar_ratio" then m.calmar_ratio
  else if key = "num_trades" then (m.num_trades : ℚ)
  else if key = "volatility" then m.volatility
  else if key = "win_rate" then m.win_rate
  else if key = "avg_win" then m.avg_win
  else if key = "avg_loss" then m.avg_loss
  else if key = "profit_factor" then m.profit_factor
  else 0

/-- Embedding of the result-record construction of the optimization loop
(src/optimization.py lines 206-237): one record per surviving parameter
combination, in enumeration order, with the objective value read by
metrics.get(optimization_metric, 0). -/
def build_results (optimization_metric : String)
    (runs : List ((ℚ × ℚ) × PerformanceMetrics)) : List OptResult :=
  runs.map (fun run => ⟨run.1.1, run.1.2, metrics_get run.2 optimization_metric⟩)

/-- C10: an objective-metric name that is no key of the metrics record makes
metrics.get return the default 0 for every record (no error is raised), so
every surviving combination ties at objective 0 and the final ranking is
exactly the enumeration order of the combinations. -/
theorem unknown_metric_defaults_to_zero (name : String)
    (hname : name ∉ metrics_keys) :
    (∀ m : PerformanceMetrics, metrics_get m name = 0)
    ∧ ∀ runs : List ((ℚ × ℚ) × PerformanceMetrics),
        sort_optimization_results name (build_results name runs)
          = build_results name runs := by
  simp only [metrics_keys, List.mem_cons, List.not_mem_nil, or_false, not_or] at hname
  obtain ⟨h1, h2, h3, h4, h5, h6, h7, h8, h9, h10, h11⟩ := hname
  have hget : ∀ m : PerformanceMetrics, metrics_get m name = 0 := by
    intro m
    simp [metrics_get, h1, h2, h3, h4, h5, h6, h7, h8, h9, h10, h11]
  refine ⟨hget, ?_⟩
  intro runs
  have hcont : (["max_drawdown"].contains name) = false := by
    simp only [List.contains_cons, List.contains_nil, Bool.or_false, beq_iff_eq]
    exact decide_eq_false h3
  have hzero : ∀ r ∈ build_results name runs, r.optimization_metric = 0 := by
    intro r hr
    rcases List.mem_map.1 hr with ⟨run, hrun, rfl⟩
    exact hget run.2
  unfold sort_optimization_results
  rw [hcont]
  show stable_sort _ (build_results name runs) = build_results name runs
  refine stable_sort_of_all_before _ _ ?_
  intro a ha b hb
  rw [hzero a ha, hzero b hb]
  simp

/-- One reference price observation (a row of the sorted price table:
unix_timestamp and the close price), idealised as rationals. -/
structure PricePoint where
  ts : ℚ
  price : ℚ
deriving DecidableEq, Repr

/-- Embedding of np.searchsorted(a, v) with the default side left on a
sorted array: the insertion index, which equals the number of elements
strictly below the target. -/
def searchsorted_left (a : List ℚ) (v : ℚ) : Nat :=
  a.countP (fun t => decide (t < v))

/-- Executable integer maximum (the lattice operations of Mathlib do not
reduce by the kernel; this definition does). -/
def int_max (x y : Int) : Int :=
  if x ≤ y then y else x

/-- Executable integer minimum. -/
def int_min (x y : Int) : Int :=
  if x ≤ y then x else y

/-- Embedding of np.abs on a rational. -/
def np_abs (x : ℚ) : ℚ :=
  if x < 0 then -x else x

/-- Embedding of np.minimum on rationals. -/
def np_minimum (x y : ℚ) : ℚ :=
  if x ≤ y then x else y

/-- Embedding of np.clip(a, lo, hi): numpy applies the maximum with lo first
and the minimum with hi second, so with lo greater than hi the result is
hi. -/
def np_clip (a lo hi : Int) : Int :=
  int_min hi (int_max a lo)

theorem int_max_eq (x y : Int) : int_max x y = max x y := by
  unfold int_max
  split <;> omega

theorem int_min_eq (x y : Int) : int_min x y = min x y := by
  unfold int_min
  split <;> omega

theorem np_abs_eq (x : ℚ) : np_abs x = |x| := by
  unfold np_abs
  split
  · exact (abs_of_neg (by assumption)).symm
  · exact (abs_of_nonneg (by linarith [not_lt.1 (by assumption)])).symm

theorem np_minimum_eq (x y : ℚ) : np_minimum x y = min x y := by
  unfold np_minimum
  rw [min_def]

/-- Indexing a list by a numpy integer index: out of bounds gives none,
modelling the IndexError numpy fancy indexing raises.  (A negative index on
a nonempty array would wrap in numpy; the resolver only produces negative
indices on an empty array, where access raises either way.) -/
def list_get_int (l : List α) (i : Int) : Option α :=
  if i < 0 then none else l.get? i.toNat

/-- Embedding of find_closest_prices (src/backtest.py lines 20-45) for one
query timestamp; the vectorised numpy code is elementwise in the query, so
one query at a time is faithful.  The outer Option models an uncaught
IndexError (none); the inner Option models the NaN marker for a query
outside tolerance (none = absent). -/
def find_closest_price (pts : List PricePoint) (q tol : ℚ) : Option (Option ℚ) :=
  let price_timestamps := pts.map PricePoint.ts
  let n : Int := (price_timestamps.length : Int)
  let indices := np_clip ((searchsorted_left price_timestamps q : Int)) 0 (n - 1)
  let left_index := int_max (indices - 1) 0
  let right_index := indices
  match list_get_int price_timestamps left_index,
        list_get_int price_timestamps right_index with
  | some left_ts, some right_ts =>
      let left_diff := np_abs (q - left_ts)
      let right_diff := np_abs (q - right_ts)
      let closest_index := if left_diff ≤ right_diff then left_index else right_index
      let min_diff := np_minimum left_diff right_diff
      if min_diff ≤ tol then
        match list_get_int (pts.map PricePoint.price) closest_index with
        | some p => some (some p)
        | none => none
      else
        some none
  | _, _ => none

/-- Modelled from the spec wording of section 4.1 and 8: the reference point
whose timestamp has minimal absolute difference to the query, ties broken to
the earliest (left) point. -/
def argmin_left (q : ℚ) : List PricePoint → Option PricePoint
  | [] => none
  | p :: l =>
      match argmin_left q l with
      | none => some p
      | some r => if np_abs (q - p.ts) ≤ np_abs (q - r.ts) then some p else some r

/-- Modelled from the spec wording of section 4.1 and 8: the price of the
nearest reference point when its distance is within tolerance, absent
otherwise. -/
def closest_spec (pts : List PricePoint) (q tol : ℚ) : Option ℚ :=
  match argmin_left q pts with
  | none => none
  | some r => if np_abs (q - r.ts) ≤ tol then some r.price else none

/-- The reference series of the worked example in the claim:
timestamps 100, 200, 400 with prices 1, 2, 4. -/
def ref_example : List PricePoint := [⟨100, 1⟩, ⟨200, 2⟩, ⟨400, 4⟩]

example : find_closest_price ref_example 150 120 = some (some 1) := by
  norm_num [find_closest_price, searchsorted_left, np_clip, int_min, int_max,
    np_abs, np_minimum, list_get_int, ref_example, Int.toNat_ofNat,
    List.getElem?_cons_zero, List.getElem?_cons_succ]
example : find_closest_price ref_example 350 120 = some (some 4) := by
  norm_num [find_closest_price, searchsorted_left, np_clip, int_min, int_max,
    np_abs, np_minimum, list_get_int, ref_example, Int.toNat_ofNat,
    List.getElem?_cons_zero, List.getElem?_cons_succ,
    show Int.toNat 2 = 2 from rfl]
example : find_closest_price ref_example 1000 120 = some none := by
  norm_num [find_closest_price, searchsorted_left, np_clip, int_min, int_max,
    np_abs, np_minimum, list_get_int, ref_example, Int.toNat_ofNat,
    List.getElem?_cons_zero, List.getElem?_cons_succ,
    show Int.toNat 2 = 2 from rfl]
example : closest_spec ref_example 150 120 = some 1 := by
  norm_num [closest_spec, argmin_left, np_abs, ref_example]
example : find_closest_price [] 100 120 = none := rfl

/-- For a strictly ascending list, the searchsorted count splits the indices:
an index is below the count exactly when its element is below the query. -/
theorem countP_lt_char (ts : List ℚ) (q : ℚ) (hs : ts.Pairwise (· < ·)) :
    ∀ i (h : i < ts.length),
      (i < ts.countP (fun t => decide (t < q)) ↔ ts.get ⟨i, h⟩ < q) := by
  induction ts with
  | nil => intro i h; simp at h
  | cons a l ih =>
      rcases List.pairwise_cons.1 hs with ⟨ha, hl⟩
      intro i h
      rw [List.countP_cons]
      by_cases haq : a < q
      · have hpa : (decide (a < q)) = true := decide_eq_true haq
        rw [hpa, show (if (true = true) then 1 else 0) = 1 from rfl]
        cases i with
        | zero =>
            simp only [List.get_eq_getElem, List.getElem_cons_zero]
            exact ⟨fun _ => haq, fun _ => Nat.succ_pos _⟩
        | succ j =>
            have hj : j < l.length := Nat.lt_of_succ_lt_succ h
            simp only [List.get_eq_getElem, List.getElem_cons_succ]
            constructor
            · intro hi
              exact (ih hl j hj).1 (Nat.lt_of_succ_lt_succ hi)
            · intro hlt
              exact Nat.succ_lt_succ ((ih hl j hj).2 hlt)
      · have hc0 : l.countP (fun t => decide (t < q)) = 0 := by
          rw [List.countP_eq_zero]
          intro x hx
          simp only [decide_eq_true_eq]
          intro hxq
          exact haq (lt_trans (ha x hx) hxq)
        have hpa : (decide (a < q)) = false := decide_eq_false haq
        rw [hpa, show (if (false = true) then 1 else 0) = 0 from rfl, hc0]
        cases i with
        | zero =>
            simp only [List.get_eq_getElem, List.getElem_cons_zero]
            constructor
            · intro hi; exact absurd hi (by omega)
            · intro hlt; exact absurd hlt haq
        | succ j =>
            have hj : j < l.length := Nat.lt_of_succ_lt_succ h
            simp only [List.get_eq_getElem, List.getElem_cons_succ]
            have hmem := List.get_mem l j hj
            have hnlt : ¬ l.get ⟨j, hj⟩ < q := by
              intro hxq
              exact haq (lt_trans (ha _ hmem) hxq)
            constructor
            · intro hi; exact absurd hi (by omega)
            · intro hlt; exact absurd hlt hnlt

/-- Strict monotonicity of a strictly ascending list in its indices. -/
theorem sorted_get_lt (ts : List ℚ) (hs : ts.Pairwise (· < ·))
    (i j : Nat) (hi : i < ts.length) (hj : j < ts.length) (hij : i < j) :
    ts.get ⟨i, hi⟩ < ts.get ⟨j, hj⟩ :=
  List.pairwise_iff_get.1 hs ⟨i, hi⟩ ⟨j, hj⟩ hij

/-- The spec-side argmin returns the element at the first index realising
the minimal absolute timestamp difference. -/
theorem argmin_left_is_first_min (q : ℚ) (pts : List PricePoint) (hne : pts ≠ []) :
    ∃ (k : Nat) (hk : k < pts.length),
      argmin_left q pts = some (pts.get ⟨k, hk⟩)
      ∧ (∀ j (hj : j < pts.length),
          np_abs (q - (pts.get ⟨k, hk⟩).ts) ≤ np_abs (q - (pts.get ⟨j, hj⟩).ts))
      ∧ (∀ j (hj : j < pts.length), j < k →
          np_abs (q - (pts.get ⟨k, hk⟩).ts) < np_abs (q - (pts.get ⟨j, hj⟩).ts)) := by
  induction pts with
  | nil => exact absurd rfl hne
  | cons p l ih =>
      by_cases hl : l = []
      · subst hl
        refine ⟨0, Nat.succ_pos _, rfl, ?_, ?_⟩
        · intro j hj
          have hj0 : j = 0 := by
            simp only [List.length_cons, List.length_nil] at hj
            omega
          subst hj0
          exact le_refl _
        · intro j hj hj0
          omega
      · obtain ⟨k, hk, heq, hmin, hstrict⟩ := ih hl
        by_cases hcmp : np_abs (q - p.ts) ≤ np_abs (q - (l.get ⟨k, hk⟩).ts)
        · refine ⟨0, Nat.succ_pos _, ?_, ?_, ?_⟩
          · rw [show argmin_left q (p :: l)
                = (match argmin_left q l with
                   | none => some p
                   | some r => if np_abs (q - p.ts) ≤ np_abs (q - r.ts)
                       then some p else some r) from rfl, heq]
            show (if np_abs (q - p.ts) ≤ np_abs (q - (l.get ⟨k, hk⟩).ts)
                then some p else some (l.get ⟨k, hk⟩)) = _
            rw [if_pos hcmp]
            rfl
          · intro j hj
            cases j with
            | zero => exact le_refl _
            | succ i =>
                have hi : i < l.length := Nat.lt_of_succ_lt_succ hj
                have h2 := hmin i hi
                simp only [List.get_eq_getElem, List.getElem_cons_zero,
                  List.getElem_cons_succ]
                exact le_trans hcmp h2
          · intro j hj hj0
            omega
        · refine ⟨k + 1, Nat.succ_lt_succ hk, ?_, ?_, ?_⟩
          · rw [show argmin_left q (p :: l)
                = (match argmin_left q l with
                   | none => some p
                   | some r => if np_abs (q - p.ts) ≤ np_abs (q - r.ts)
                       then some p else some r) from rfl, heq]
            show (if np_abs (q - p.ts) ≤ np_abs (q - (l.get ⟨k, hk⟩).ts)
                then some p else some (l.get ⟨k, hk⟩)) = _
            rw [if_neg hcmp]
            rfl
          · intro j hj
            cases j with
            | zero =>
                simp only [List.get_eq_getElem, List.getElem_cons_zero,
                  List.getElem_cons_succ]
                exact le_of_lt (lt_of_not_le hcmp)
            | succ i =>
                have hi : i < l.length := Nat.lt_of_succ_lt_succ hj
                simp only [List.get_eq_getElem, List.getElem_cons_succ]
                exact hmin i hi
          · intro j hj hjk
            cases j with
            | zero =>
                simp only [List.get_eq_getElem, List.getElem_cons_zero,
                  List.getElem_cons_succ]
                exact lt_of_not_le hcmp
            | succ i =>
                have hi : i < l.length := Nat.lt_of_succ_lt_succ hj
                simp only [List.get_eq_getElem, List.getElem_cons_succ]
                exact hstrict i hi (Nat.lt_of_succ_lt_succ hjk)

/-- Indexing the mapped timestamp list by a natural index in bounds. -/
theorem list_get_int_map_ts (pts : List PricePoint) (k : Nat) (hk : k < pts.length) :
    list_get_int (pts.map PricePoint.ts) (k : Int)
      = some ((pts.get ⟨k, hk⟩).ts) := by
  unfold list_get_int
  rw [if_neg (by omega : ¬ (k : Int) < 0), Int.toNat_natCast,
    List.get?_eq_get (by simpa using hk)]
  congr 1
  simp [List.get_eq_getElem]

/-- Indexing the mapped price list by a natural index in bounds. -/
theorem list_get_int_map_price (pts : List PricePoint) (k : Nat) (hk : k < pts.length) :
    list_get_int (pts.map PricePoint.price) (k : Int)
      = some ((pts.get ⟨k, hk⟩).price) := by
  unfold list_get_int
  rw [if_neg (by omega : ¬ (k : Int) < 0), Int.toNat_natCast,
    List.get?_eq_get (by simpa using hk)]
  congr 1
  simp [List.get_eq_getElem]

/-- Evaluation of the resolver once the two candidate indices produced by
the clipped binary search are known. -/
theorem find_closest_price_eval (pts : List PricePoint) (q tol : ℚ)
    (kl kr : Nat) (hkl : kl < pts.length) (hkr : kr < pts.length)
    (hclip : np_clip ((searchsorted_left (pts.map PricePoint.ts) q : Int)) 0
        ((pts.length : Int) - 1) = (kr : Int))
    (hleft : int_max ((kr : Int) - 1) 0 = (kl : Int)) :
    find_closest_price pts q tol =
      if np_minimum (np_abs (q - (pts.get ⟨kl, hkl⟩).ts))
          (np_abs (q - (pts.get ⟨kr, hkr⟩).ts)) ≤ tol then
        some (some (if np_abs (q - (pts.get ⟨kl, hkl⟩).ts)
            ≤ np_abs (q - (pts.get ⟨kr, hkr⟩).ts)
          then (pts.get ⟨kl, hkl⟩).price else (pts.get ⟨kr, hkr⟩).price))
      else some none := by
  unfold find_closest_price
  dsimp only
  simp only [List.length_map]
  rw [hclip, hleft]
  rw [list_get_int_map_ts pts kl hkl, list_get_int_map_ts pts kr hkr]
  dsimp only
  by_cases hlr : np_abs (q - (pts.get ⟨kl, hkl⟩).ts)
      ≤ np_abs (q - (pts.get ⟨kr, hkr⟩).ts)
  · rw [if_pos hlr, list_get_int_map_price pts kl hkl, if_pos hlr]
  · rw [if_neg hlr, list_get_int_map_price pts kr hkr, if_neg hlr]

/-- The resolver agrees with the spec-side nearest-point selector on every
nonempty strictly ascending reference series. -/
theorem find_closest_eq_closest_spec (pts : List PricePoint) (q tol : ℚ)
    (hne : pts ≠ []) (hs : (pts.map PricePoint.ts).Pairwise (· < ·)) :
    find_closest_price pts q tol = some (closest_spec pts q tol) := by
  have hn : 0 < pts.length := List.length_pos.2 hne
  set n := pts.length with hn_eq
  set c := searchsorted_left (pts.map PricePoint.ts) q with hc_eq
  have hc_le : c ≤ n := by
    rw [hc_eq, hn_eq]
    unfold searchsorted_left
    calc (pts.map PricePoint.ts).countP (fun t => decide (t < q))
        ≤ (pts.map PricePoint.ts).length := List.countP_le_length _
      _ = pts.length := by simp
  have hchar : ∀ i (hi : i < n), (i < c ↔ (pts.get ⟨i, hi⟩).ts < q) := by
    intro i hi
    have hmap : i < (pts.map PricePoint.ts).length := by simpa using hi
    have h1 := countP_lt_char (pts.map PricePoint.ts) q hs i hmap
    have h2 : (pts.map PricePoint.ts).get ⟨i, hmap⟩ = (pts.get ⟨i, hi⟩).ts := by
      simp [List.get_eq_getElem]
    rw [h2] at h1
    rw [hc_eq]
    unfold searchsorted_left
    exact h1
  have hmono : ∀ i j (hi : i < n) (hj : j < n), i < j →
      (pts.get ⟨i, hi⟩).ts < (pts.get ⟨j, hj⟩).ts := by
    intro i j hi hj hij
    have hmi : i < (pts.map PricePoint.ts).length := by simpa using hi
    have hmj : j < (pts.map PricePoint.ts).length := by simpa using hj
    have := sorted_get_lt (pts.map PricePoint.ts) hs i j hmi hmj hij
    simpa [List.get_eq_getElem] using this
  have hbelow : ∀ j (hj : j < n), j < c →
      np_abs (q - (pts.get ⟨j, hj⟩).ts) = q - (pts.get ⟨j, hj⟩).ts := by
    intro j hj hcj
    have hlt : (pts.get ⟨j, hj⟩).ts < q := (hchar j hj).1 hcj
    unfold np_abs
    rw [if_neg (by linarith)]
  have habove : ∀ j (hj : j < n), c ≤ j →
      np_abs (q - (pts.get ⟨j, hj⟩).ts) = (pts.get ⟨j, hj⟩).ts - q := by
    intro j hj hcj
    have hq_le : q ≤ (pts.get ⟨j, hj⟩).ts := by
      by_contra hqlt
      have := (hchar j hj).2 (not_le.1 hqlt)
      omega
    unfold np_abs
    by_cases hneg : q - (pts.get ⟨j, hj⟩).ts < 0
    · rw [if_pos hneg]; ring
    · rw [if_neg hneg]; linarith
  obtain ⟨k, hk, heq, hmin, hstrict⟩ := argmin_left_is_first_min q pts hne
  have huniq : ∀ (k1 : Nat) (hk1 : k1 < n),
      (∀ j (hj : j < n), np_abs (q - (pts.get ⟨k1, hk1⟩).ts)
          ≤ np_abs (q - (pts.get ⟨j, hj⟩).ts)) →
      (∀ j (hj : j < n), j < k1 → np_abs (q - (pts.get ⟨k1, hk1⟩).ts)
          < np_abs (q - (pts.get ⟨j, hj⟩).ts)) →
      k = k1 := by
    intro k1 hk1 hmin1 hstrict1
    rcases Nat.lt_trichotomy k k1 with h | h | h
    · have h1 := hstrict1 k hk h
      have h2 := hmin k1 hk1
      linarith
    · exact h
    · have h1 := hstrict k1 hk1 h
      have h2 := hmin1 k hk
      linarith
  have hspec : closest_spec pts q tol
      = if np_abs (q - (pts.get ⟨k, hk⟩).ts) ≤ tol
        then some ((pts.get ⟨k, hk⟩).price) else none := by
    unfold closest_spec
    rw [heq]
  -- the two candidate indices of the clipped search, by cases on c and n
  by_cases hn1 : n = 1
  · -- a single reference point: both candidates are index 0
    have hkr : 0 < n := hn
    have eclip : np_clip ((c : Int)) 0 ((n : Int) - 1) = ((0 : Nat) : Int) := by
      unfold np_clip int_min int_max
      split <;> split <;> omega
    have eleft : int_max (((0 : Nat) : Int) - 1) 0 = ((0 : Nat) : Int) := by
      unfold int_max
      split <;> omega
    rw [find_closest_price_eval pts q tol 0 0 hkr hkr eclip eleft, hspec]
    have hk0 : k = 0 := by
      refine huniq 0 hkr ?_ ?_
      · intro j hj
        have hj0 : j = 0 := by omega
        subst hj0
        exact le_refl _
      · intro j hj hj0
        omega
    subst hk0
    rw [if_pos (le_refl _)]
    show (if np_minimum (np_abs (q - (pts.get ⟨0, hkr⟩).ts))
        (np_abs (q - (pts.get ⟨0, hkr⟩).ts)) ≤ tol then _ else _) = _
    rw [show np_minimum (np_abs (q - (pts.get ⟨0, hkr⟩).ts))
        (np_abs (q - (pts.get ⟨0, hkr⟩).ts)) = np_abs (q - (pts.get ⟨0, hkr⟩).ts) by
      unfold np_minimum; rw [if_pos (le_refl _)]]
    by_cases htol : np_abs (q - (pts.get ⟨0, hkr⟩).ts) ≤ tol
    · rw [if_pos htol, if_pos htol]
    · rw [if_neg htol, if_neg htol]
  · have hn2 : 2 ≤ n := by omega
    by_cases hc0 : c = 0
    · -- query at or before the first point: both candidates are index 0
      have hkr : 0 < n := hn
      have eclip : np_clip ((c : Int)) 0 ((n : Int) - 1) = ((0 : Nat) : Int) := by
        unfold np_clip int_min int_max
        split <;> split <;> omega
      have eleft : int_max (((0 : Nat) : Int) - 1) 0 = ((0 : Nat) : Int) := by
        unfold int_max
        split <;> omega
      rw [find_closest_price_eval pts q tol 0 0 hkr hkr eclip eleft, hspec]
      have hk0 : k = 0 := by
        refine huniq 0 hkr ?_ ?_
        · intro j hj
          rcases Nat.eq_zero_or_pos j with hj0 | hjpos
          · subst hj0
            exact le_refl _
          · rw [habove 0 hkr (by omega), habove j hj (by omega)]
            have := hmono 0 j hkr hj hjpos
            linarith
        · intro j hj hj0
          omega
      subst hk0
      rw [if_pos (le_refl _)]
      rw [show np_minimum (np_abs (q - (pts.get ⟨0, hkr⟩).ts))
          (np_abs (q - (pts.get ⟨0, hkr⟩).ts)) = np_abs (q - (pts.get ⟨0, hkr⟩).ts) by
        unfold np_minimum; rw [if_pos (le_refl _)]]
      by_cases htol : np_abs (q - (pts.get ⟨0, hkr⟩).ts) ≤ tol
      · rw [if_pos htol, if_pos htol]
      · rw [if_neg htol, if_neg htol]
    · by_cases hcn : c = n
      · -- query after the last point: candidates n-2 and n-1, right wins
        have hkr : n - 1 < n := by omega
        have hkl : n - 2 < n := by omega
        have eclip : np_clip ((c : Int)) 0 ((n : Int) - 1) = ((n - 1 : Nat) : Int) := by
          unfold np_clip int_min int_max
          split <;> split <;> omega
        have eleft : int_max (((n - 1 : Nat) : Int) - 1) 0 = ((n - 2 : Nat) : Int) := by
          unfold int_max
          split <;> omega
        rw [find_closest_price_eval pts q tol (n - 2) (n - 1) hkl hkr eclip eleft, hspec]
        have hgt : np_abs (q - (pts.get ⟨n - 1, hkr⟩).ts)
            < np_abs (q - (pts.get ⟨n - 2, hkl⟩).ts) := by
          rw [hbelow (n - 1) hkr (by omega), hbelow (n - 2) hkl (by omega)]
          have := hmono (n - 2) (n - 1) hkl hkr (by omega)
          linarith
        have hkn : k = n - 1 := by
          refine huniq (n - 1) hkr ?_ ?_
          · intro j hj
            rcases Nat.lt_or_ge j (n - 1) with hjlt | hjge
            · rw [hbelow (n - 1) hkr (by omega), hbelow j hj (by omega)]
              have := hmono j (n - 1) hj hkr hjlt
              linarith
            · have hj_eq : j = n - 1 := by omega
              subst hj_eq
              exact le_refl _
          · intro j hj hjlt
            rw [hbelow (n - 1) hkr (by omega), hbelow j hj (by omega)]
            have := hmono j (n - 1) hj hkr hjlt
            linarith
        subst hkn
        rw [if_neg (not_le.2 hgt)]
        rw [show np_minimum (np_abs (q - (pts.get ⟨n - 2, hkl⟩).ts))
            (np_abs (q - (pts.get ⟨n - 1, hkr⟩).ts))
            = np_abs (q - (pts.get ⟨n - 1, hkr⟩).ts) by
          unfold np_minimum; rw [if_neg (not_le.2 hgt)]]
        by_cases htol : np_abs (q - (pts.get ⟨n - 1, hkr⟩).ts) ≤ tol
        · rw [if_pos htol, if_pos htol]
        · rw [if_neg htol, if_neg htol]
      · -- interior query: candidates c-1 and c
        have hcpos : 0 < c := by omega
        have hclt : c < n := by omega
        have hkl : c - 1 < n := by omega
        have eclip : np_clip ((c : Int)) 0 ((n : Int) - 1) = ((c : Nat) : Int) := by
          unfold np_clip int_min int_max
          split <;> split <;> omega
        have eleft : int_max (((c : Nat) : Int) - 1) 0 = ((c - 1 : Nat) : Int) := by
          unfold int_max
          split <;> omega
        rw [find_closest_price_eval pts q tol (c - 1) c hkl hclt eclip eleft, hspec]
        have hld : np_abs (q - (pts.get ⟨c - 1, hkl⟩).ts)
            = q - (pts.get ⟨c - 1, hkl⟩).ts := hbelow (c - 1) hkl (by omega)
        have hrd : np_abs (q - (pts.get ⟨c, hclt⟩).ts)
            = (pts.get ⟨c, hclt⟩).ts - q := habove c hclt (le_refl c)
        by_cases hlr : np_abs (q - (pts.get ⟨c - 1, hkl⟩).ts)
            ≤ np_abs (q - (pts.get ⟨c, hclt⟩).ts)
        · -- left candidate wins (ties included)
          have hkc : k = c - 1 := by
            refine huniq (c - 1) hkl ?_ ?_
            · intro j hj
              rcases Nat.lt_or_ge j c with hjlt | hjge
              · rcases Nat.lt_or_ge j (c - 1) with hjlt2 | hjge2
                · rw [hld, hbelow j hj hjlt]
                  have := hmono j (c - 1) hj hkl hjlt2
                  linarith
                · have hj_eq : j = c - 1 := by omega
                  subst hj_eq
                  exact le_refl _
              · rcases Nat.eq_or_lt_of_le hjge with hj_eq | hjgt
                · subst hj_eq
                  exact hlr
                · rw [habove j hj (by omega)] at *
                  rw [hld] at *
                  have h1 := hmono c j hclt hj hjgt
                  rw [hrd] at hlr
                  linarith
            · intro j hj hjlt
              rw [hld, hbelow j hj (by omega)]
              have := hmono j (c - 1) hj hkl hjlt
              linarith
          subst hkc
          rw [if_pos hlr]
          rw [show np_minimum (np_abs (q - (pts.get ⟨c - 1, hkl⟩).ts))
              (np_abs (q - (pts.get ⟨c, hclt⟩).ts))
              = np_abs (q - (pts.get ⟨c - 1, hkl⟩).ts) by
            unfold np_minimum; rw [if_pos hlr]]
          by_cases htol : np_abs (q - (pts.get ⟨c - 1, hkl⟩).ts) ≤ tol
          · rw [if_pos htol, if_pos htol]
          · rw [if_neg htol, if_neg htol]
        · -- right candidate wins strictly
          have hrl : np_abs (q - (pts.get ⟨c, hclt⟩).ts)
              < np_abs (q - (pts.get ⟨c - 1, hkl⟩).ts) := lt_of_not_le hlr
          have hkc : k = c := by
            refine huniq c hclt ?_ ?_
            · intro j hj
              rcases Nat.lt_or_ge j c with hjlt | hjge
              · rcases Nat.lt_or_ge j (c - 1) with hjlt2 | hjge2
                · rw [hbelow j hj hjlt]
                  rw [hld] at hrl
                  have := hmono j (c - 1) hj hkl hjlt2
                  linarith
                · have hj_eq : j = c - 1 := by omega
                  subst hj_eq
                  exact le_of_lt hrl
              · rcases Nat.eq_or_lt_of_le hjge with hj_eq | hjgt
                · subst hj_eq
                  exact le_refl _
                · rw [hrd, habove j hj (by omega)]
                  have := hmono c j hclt hj hjgt
                  linarith
            · intro j hj hjlt
              rcases Nat.lt_or_ge j (c - 1) with hjlt2 | hjge2
              · rw [hbelow j hj hjlt]
                rw [hld] at hrl
                have := hmono j (c - 1) hj hkl hjlt2
                linarith
              · have hj_eq : j = c - 1 := by omega
                subst hj_eq
                exact hrl
          subst hkc
          rw [if_neg hlr]
          rw [show np_minimum (np_abs (q - (pts.get ⟨c - 1, hkl⟩).ts))
              (np_abs (q - (pts.get ⟨c, hclt⟩).ts))
              = np_abs (q - (pts.get ⟨c, hclt⟩).ts) by
            unfold np_minimum; rw [if_neg hlr]]
          by_cases htol : np_abs (q - (pts.get ⟨c, hclt⟩).ts) ≤ tol
          · rw [if_pos htol, if_pos htol]
          · rw [if_neg htol, if_neg htol]

/-- C1: for every reference price series sorted strictly ascending by
timestamp, every query timestamp and tolerance, the resolver returns the
price of the reference point whose timestamp has minimal absolute
difference to the query among all reference points, with ties between the
two candidate neighbours broken to the earlier (left) point, and an absent
result when that minimal difference exceeds the tolerance; in particular
for reference timestamps 100, 200, 400 with prices 1, 2, 4 and tolerance
120, query 150 resolves to price 1, query 350 to price 4, and query 1000 is
absent. -/
theorem resolver_nearest_point_correct :
    (∀ (pts : List PricePoint) (q tol : ℚ), pts ≠ [] →
        (pts.map PricePoint.ts).Pairwise (· < ·) →
        find_closest_price pts q tol = some (closest_spec pts q tol))
    ∧ find_closest_price ref_example 150 120 = some (some 1)
    ∧ find_closest_price ref_example 350 120 = some (some 4)
    ∧ find_closest_price ref_example 1000 120 = some none := by
  refine ⟨fun pts q tol hne hs => find_closest_eq_closest_spec pts q tol hne hs,
    ?_, ?_, ?_⟩
  · norm_num [find_closest_price, searchsorted_left, np_clip, int_min, int_max,
      np_abs, np_minimum, list_get_int, ref_example, Int.toNat_ofNat,
      List.getElem?_cons_zero, List.getElem?_cons_succ]
  · norm_num [find_closest_price, searchsorted_left, np_clip, int_min, int_max,
      np_abs, np_minimum, list_get_int, ref_example, Int.toNat_ofNat,
      List.getElem?_cons_zero, List.getElem?_cons_succ,
      show Int.toNat 2 = 2 from rfl]
  · norm_num [find_closest_price, searchsorted_left, np_clip, int_min, int_max,
      np_abs, np_minimum, list_get_int, ref_example, Int.toNat_ofNat,
      List.getElem?_cons_zero, List.getElem?_cons_succ,
      show Int.toNat 2 = 2 from rfl]

theorem resolver_nearest_point_correct_witness :
    find_closest_price ref_example 250 120
      = some (closest_spec ref_example 250 120) :=
  resolver_nearest_point_correct.1 ref_example 250 120 (by decide) (by decide)

/-- One output row of get_prices_at_timestamps (src/backtest.py lines
52-58): the query timestamp and the three resolved prices, each absent when
the lookup missed tolerance. -/
structure PriceRow where
  unix_timestamp : ℚ
  price_current : Option ℚ
  price_window : Option ℚ
  price_threshold : Option ℚ
deriving DecidableEq, Repr

/-- Embedding of get_prices_at_timestamps (src/backtest.py lines 4-60).
The price table argument is an Option: none models a Python None price_df
(which returns an empty frame), some a real table.  window and threshold
are minutes; the offsets are window*60 and threshold*60 seconds.  The outer
Option models an exception escaping the function (none = raise): each of
the three find_closest_prices calls is evaluated on every query. -/
def get_prices_at_timestamps (price_df : Option (List PricePoint))
    (timestamps : List ℚ) (window threshold : ℚ) : Option (List PriceRow) :=
  match price_df with
  | none => some []
  | some pts =>
      if timestamps.isEmpty then some []
      else
        timestamps.mapM (fun t => do
          let price_current ← find_closest_price pts t 120
          let price_window ← find_closest_price pts (t + window * 60) 120
          let price_threshold ← find_closest_price pts (t + threshold * 60) 120
          pure ⟨t, price_current, price_window, price_threshold⟩)

/-- C7 (evaluating the code at the failing input): resolving a non-empty
query list against a present but empty reference price table raises (the
modelled IndexError of numpy indexing into the empty timestamp array after
np.clip produces index -1) instead of returning one absent result per
query.  Only a Python None price table, or an empty query list, give the
graceful empty result. -/
theorem resolver_empty_series_raises :
    get_prices_at_timestamps (some []) [100] 1 10 = none
    ∧ (∀ (t : ℚ) (rest : List ℚ) (window threshold : ℚ),
        get_prices_at_timestamps (some []) (t :: rest) window threshold = none)
    ∧ get_prices_at_timestamps none [100] 1 10 = some [] := by
  have hcrash : ∀ t : ℚ, find_closest_price [] t 120 = none := fun t => rfl
  refine ⟨rfl, ?_, rfl⟩
  intro t rest window threshold
  simp only [get_prices_at_timestamps, List.isEmpty_cons, if_false, hcrash]
  rfl

theorem trading_returns_formula_witness :
    (calculate_trading_returns ⟨.fin 1, .fin 2, .fin 3⟩ none).position
      = if 0 < ((2 : ℚ) - 1) / 1 then 1 else -1 :=
  (trading_returns_formula 1 2 3 none (by norm_num)).1

theorem optimizer_ranking_witness :
    (sort_optimization_results "total_return"
        [⟨1, 10, 5⟩, ⟨2, 10, 5⟩]).Perm [⟨1, 10, 5⟩, ⟨2, 10, 5⟩] :=
  ((optimizer_ranking_descending_stable "total_return"
      (List.mem_cons_self _ _)).1 _).2.1

theorem unknown_metric_defaults_witness :
    metrics_get ⟨1, 2, 3, 4, 5, 6, 7, 8, 9, 10, 11⟩ "not_a_metric" = 0 :=
  (unknown_metric_defaults_to_zero "not_a_metric" (by decide)).1 _

/-- One row of the news table: the resolved numeric timestamp (none = NaN)
and the value of the token column for this row (none = NaN). -/
structure NewsRow where
  unix_timestamp : Option ℚ
  token : Option String
deriving DecidableEq, Repr

/-- The news table as the pipeline sees it: whether the chosen token column
exists at all (accessing a missing column raises KeyError in pandas), and
the rows. -/
structure NewsTable where
  has_token_col : Bool
  rows : List NewsRow
deriving DecidableEq, Repr

/-- Comparison used to model sort_values on unix_timestamp: ascending with
NaN placed last (pandas na_position default).  The tie order of the pandas
default quicksort is unspecified; the claims settled on this model do not
depend on the order of equal timestamps. -/
def row_before (a b : NewsRow) : Bool :=
  match a.unix_timestamp, b.unix_timestamp with
  | some x, some y => decide (x ≤ y)
  | some _, none => true
  | none, none => true
  | none, some _ => false

/-- Whether the first character list is an initial segment of the second. -/
def leading_match : List Char → List Char → Bool
  | [], _ => true
  | _ :: _, [] => false
  | p :: ps, c :: cs => p = c && leading_match ps cs

/-- Whether the first character list occurs contiguously in the second
(plain substring containment, the semantics of str.contains on a regex
that is an alternation of literals). -/
def has_substring (pattern : List Char) : List Char → Bool
  | [] => leading_match pattern []
  | c :: cs => leading_match pattern (c :: cs) || has_substring pattern cs

/-- Embedding of the token pattern test of filter_crypto_news
(src/backtest.py line 77): astype(str) renders NaN as the string nan,
str.upper upper-cases, and the regex BTC|BITCOIN (resp. ETH|ETHEREUM) is a
plain substring alternation. -/
def token_matches (token : Option String) (patterns : List String) : Bool :=
  let s := (match token with
    | some t => t
    | none => "nan").toUpper
  patterns.any (fun p => has_substring p.toList s.toList)

/-- Embedding of filter_crypto_news (src/backtest.py lines 63-81): sort by
timestamp, pick the pattern set for the asset (raising ValueError on an
unsupported asset), then keep the rows whose token matches a pattern and
whose timestamp is present.  Accessing the token column raises KeyError
when the column is missing. -/
def filter_crypto_news (news : NewsTable) (selected_crypto : String) :
    Except String (List NewsRow) := do
  let news_df_sorted := stable_sort row_before news.rows
  let crypto_patterns ←
    if selected_crypto = "BTC" then pure ["BTC", "BITCOIN"]
    else if selected_crypto = "ETH" then pure ["ETH", "ETHEREUM"]
    else throw ("ValueError: unsupported cryptocurrency " ++ selected_crypto)
  if news.has_token_col then
    pure (news_df_sorted.filter (fun r =>
      token_matches r.token crypto_patterns && r.unix_timestamp.isSome))
  else
    throw "KeyError: token column missing"

/-- One row of the result table of execute_backtest_strategy
(src/backtest.py lines 174-191). -/
structure ResultRow where
  unix_timestamp : ℚ
  token : String
  price_current : ℚ
  price_window : ℚ
  price_threshold : ℚ
  price_change_window : Fl
  position : Int
  trade_return : Fl
deriving DecidableEq, Repr

/-- The generic result column names (src/backtest.py lines 174-177). -/
def generic_result_columns : List String :=
  ["unix_timestamp", "token", "price_current", "price_window",
   "price_threshold", "price_change_window", "position", "trade_return"]

/-- Embedding of the column naming of execute_backtest_strategy
(src/backtest.py lines 179-189): exactly for the default pair window = 1
and threshold = 10 the window, threshold and window-change columns are
renamed to the 1min/10min names; every other pair keeps the generic
names. -/
def result_columns (window threshold : ℚ) : List String :=
  if window = 1 ∧ threshold = 10 then
    ["unix_timestamp", "token", "price_current", "price_1min", "price_10min",
     "price_change_1min", "position", "trade_return"]
  else
    generic_result_columns

/-- Embedding of the try-block body of execute_backtest_strategy
(src/backtest.py lines 120-201) up to the rows and returns it produces:
filter the news, sort the price table, resolve the three prices per event,
drop rows with a missing price, and build the trade columns.  The two early
returns for an empty event set and an empty surviving set give the empty
result; an escaping exception is an error value. -/
def backtest_pipeline (price_df : List PricePoint) (news : NewsTable)
    (selected_crypto : String) (trading_costs : Option TradingCosts)
    (window threshold : ℚ) : Except String (List ResultRow × List Fl) := do
  let crypto_news ← filter_crypto_news news selected_crypto
  if crypto_news.isEmpty then
    pure ([], [])
  else
    let price_df_sorted := stable_sort
      (fun a b => decide (a.ts ≤ b.ts)) price_df
    let timestamps := crypto_news.map (fun r => r.unix_timestamp.getD 0)
    let price_results ←
      match get_prices_at_timestamps (some price_df_sorted) timestamps
          window threshold with
      | none => throw "IndexError"
      | some rs => pure rs
    let merged := crypto_news.zip price_results
    let surviving := merged.filter (fun rp =>
      rp.2.price_current.isSome && rp.2.price_window.isSome
        && rp.2.price_threshold.isSome)
    if surviving.isEmpty then
      pure ([], [])
    else
      let rows := surviving.map (fun rp =>
        let pc := rp.2.price_current.getD 0
        let pw := rp.2.price_window.getD 0
        let pt := rp.2.price_threshold.getD 0
        let cols := calculate_trading_returns ⟨Fl.fin pc, Fl.fin pw, Fl.fin pt⟩
          trading_costs
        let token := ((match rp.1.token with
          | some t => t
          | none => "nan").toUpper).trim
        (⟨rp.2.unix_timestamp, token, pc, pw, pt, cols.price_change_window,
          cols.position, cols.trade_return⟩ : ResultRow))
      pure (rows, rows.map (fun r => r.trade_return))

/-- Embedding of execute_backtest_strategy (src/backtest.py lines 113-206).
The verbose logging before the try block subscripts the news table with the
token column, so with verbose on and the column missing an exception
escapes to the caller (outer none).  Inside the try block every exception
is caught and turned into the empty result. -/
def execute_backtest_strategy (price_df : List PricePoint) (news : NewsTable)
    (selected_crypto : String) (trading_costs : Option TradingCosts)
    (window threshold : ℚ) (verbose : Bool) :
    Option (List String × List ResultRow × List Fl) :=
  if verbose && !news.has_token_col then
    none
  else
    some (match backtest_pipeline price_df news selected_crypto trading_costs
        window threshold with
      | .ok (rows, returns) =>
          if rows.isEmpty then ([], [], [])
          else (result_columns window threshold, rows, returns)
      | .error _ => ([], [], []))

/-- Modelled from the spec wording of section 9 (column renaming as pure
presentation): the same pipeline with the special-case renaming disabled,
used to state that the renaming never changes the numeric contents. -/
def execute_backtest_generic_cols (price_df : List PricePoint)
    (news : NewsTable) (selected_crypto : String)
    (trading_costs : Option TradingCosts) (window threshold : ℚ)
    (verbose : Bool) : Option (List String × List ResultRow × List Fl) :=
  if verbose && !news.has_token_col then
    none
  else
    some (match backtest_pipeline price_df news selected_crypto trading_costs
        window threshold with
      | .ok (rows, returns) =>
          if rows.isEmpty then ([], [], [])
          else (generic_result_columns, rows, returns)
      | .error _ => ([], [], []))

/-- C8 counterexample: with verbose on (the default) and the token column
missing from the news table, execute_backtest_strategy raises to its caller
(the pre-try verbose logging subscripts the missing column), so the
pipeline does not catch every internal error. -/
theorem execute_raises_on_missing_token_column :
    execute_backtest_strategy [] ⟨false, []⟩ "BTC" none 1 10 true = none := rfl

/-- C8 amended: every exception raised inside the try body of
execute_backtest_strategy — the unsupported-asset ValueError included — is
caught and converted to the empty result table and empty returns list,
indistinguishable from a zero-trades run; only the pre-try verbose logging
can raise, namely when verbose is on and the token column is missing. -/
theorem execute_catches_all_pipeline_errors (price_df : List PricePoint)
    (news : NewsTable) (selected_crypto : String)
    (trading_costs : Option TradingCosts) (window threshold : ℚ) :
    ((execute_backtest_strategy price_df news selected_crypto trading_costs
        window threshold false).isSome = true)
    ∧ (news.has_token_col = true → ∀ verbose,
        (execute_backtest_strategy price_df news selected_crypto trading_costs
          window threshold verbose).isSome = true)
    ∧ (selected_crypto ∉ ["BTC", "ETH"] →
        execute_backtest_strategy price_df news selected_crypto trading_costs
          window threshold false = some ([], [], [])) := by
  refine ⟨?_, ?_, ?_⟩
  · simp [execute_backtest_strategy]
  · intro htok verbose
    simp [execute_backtest_strategy, htok]
  · intro hm
    simp only [List.mem_cons, List.not_mem_nil, or_false, not_or] at hm
    obtain ⟨hbtc, heth⟩ := hm
    have hfilter : filter_crypto_news news selected_crypto
        = Except.error ("ValueError: unsupported cryptocurrency "
            ++ selected_crypto) := by
      unfold filter_crypto_news
      simp only [hbtc, heth, if_false]
      rfl
    have hpipe : backtest_pipeline price_df news selected_crypto trading_costs
        window threshold = Except.error ("ValueError: unsupported cryptocurrency "
            ++ selected_crypto) := by
      unfold backtest_pipeline
      rw [hfilter]
      rfl
    unfold execute_backtest_strategy
    rw [hpipe]
    rfl

theorem execute_catches_all_pipeline_errors_witness :
    execute_backtest_strategy [] ⟨true, []⟩ "DOGE" none 1 10 false
      = some ([], [], []) :=
  (execute_catches_all_pipeline_errors [] ⟨true, []⟩ "DOGE" none 1 10).2.2
    (by decide)

/-- C9: exactly for the parameter pair window = 1 and threshold = 10 the
result table uses the renamed columns price_1min, price_10min and
price_change_1min; every other pair uses the generic names price_window,
price_threshold and price_change_window; and the renaming never changes the
rows or the returns (the numeric contents are identical to the pipeline
with the renaming disabled). -/
theorem default_param_column_renaming :
    (∀ window threshold : ℚ,
        result_columns window threshold
          = ["unix_timestamp", "token", "price_current", "price_1min",
             "price_10min", "price_change_1min", "position", "trade_return"]
        ↔ (window = 1 ∧ threshold = 10))
    ∧ (∀ window threshold : ℚ, ¬(window = 1 ∧ threshold = 10) →
        result_columns window threshold = generic_result_columns)
    ∧ (∀ (price_df : List PricePoint) (news : NewsTable)
        (selected_crypto : String) (trading_costs : Option TradingCosts)
        (window threshold : ℚ) (verbose : Bool),
        (execute_backtest_strategy price_df news selected_crypto trading_costs
            window threshold verbose).map (fun p => p.2)
        = (execute_backtest_generic_cols price_df news selected_crypto
            trading_costs window threshold verbose).map (fun p => p.2)) := by
  refine ⟨?_, ?_, ?_⟩
  · intro w t
    constructor
    · intro h
      by_contra hneg
      rw [result_columns, if_neg hneg] at h
      exact absurd h (by decide)
    · intro h
      rw [result_columns, if_pos h]
  · intro w t h
    rw [result_columns, if_neg h]
  · intro price news crypto costs w t verbose
    unfold execute_backtest_strategy execute_backtest_generic_cols
    by_cases hv : (verbose && !news.has_token_col) = true
    · rw [if_pos hv, if_pos hv]
    · rw [if_neg hv, if_neg hv]
      cases hbp : backtest_pipeline price news crypto costs w t with
      | ok pr =>
          obtain ⟨rows, rets⟩ := pr
          by_cases hr : rows.isEmpty <;> simp [hr]
      | error e => simp

theorem default_param_column_renaming_witness :
    result_columns 2 10 = generic_result_columns :=
  default_param_column_renaming.2.1 2 10 (by norm_num)
